import Mathlib

/-
Verification of the rule-based expert system core
(`expert_system_core.py`: classes `Rule`, `Fact`, `ExpertSystem` with
forward chaining, backward chaining, and the derivation explainer).

Modelling conventions:
* Python `float` confidences are modelled as `ℚ`; the only operations the
  code performs on confidences are comparisons and `min`, which agree with
  the rational model on representable values.
* Python `dict` stores (`self.rules`, `self.facts`) are modelled as
  insertion-ordered association lists (`List Rule`, `List Fact`) keyed by
  `name` / `statement`; `insertFact` mirrors dict assignment (overwrite in
  place, else append), and lookups take the first (hence unique) match.
* Python `str(fact)` rendering inside trace records is abstracted to the
  `Fact` value itself; the format string carries no extra information.
* The f-string step labels of trace records ("Recursion check at depth n",
  …) are abstracted to the constructor identity plus the depth number.
* The unbounded `while` loop of `forward_chain` and the recursion of
  `_backward_chain_recursive` and `explain_fact` are given explicit fuel;
  sufficiency of the chosen fuel is proved where the loops terminate, and
  `explain_fact` returns an explicit error where Python raises
  (`IndexError` on a malformed source) or diverges.
-/

namespace ExpertCore

/-- A fact of working memory: `Fact.__init__` fields `statement`,
`confidence`, `source`. -/
structure Fact where
  statement : String
  confidence : ℚ
  source : String
deriving DecidableEq

/-- A rule of the knowledge base: `Rule.__init__` fields `name`,
`antecedents`, `consequents`, `description`. -/
structure Rule where
  name : String
  antecedents : List String
  consequents : List String
  description : String
deriving DecidableEq

/-- One record of `self.inference_trace`.  Each constructor corresponds to
one dict shape appended by the Python code; the fixed parts of each
f-string label live in the constructor, the varying parts are fields. -/
inductive TraceStep where
  /-- forward_chain: `{iteration, rule_applied, rule_description,
  antecedents, new_facts}` (fact values instead of their `str` rendering). -/
  | forward (iteration : Nat) (ruleApplied : String) (ruleDescription : String)
      (antecedents : List Fact) (newFacts : List Fact)
  /-- backward_chain: `{step: "Goal verification", result: "Goal '<goal>'
  is already a known fact", status: "Proven"}`. -/
  | goalKnown (goal : String) (status : String)
  /-- `{step: "Recursion check at depth <d>", goal, result, status}`. -/
  | recursionCheck (depth : Nat) (goal : String) (result : String) (status : String)
  /-- `{step: "Goal exploration at depth <d>", goal, result, status}`. -/
  | goalExploration (depth : Nat) (goal : String) (result : String) (status : String)
  /-- `{step: "Rule examination at depth <d>", rule, description, goal,
  needs_to_prove}`. -/
  | ruleExam (depth : Nat) (rule : String) (description : String) (goal : String)
      (needsToProve : List String)
  /-- `{step: "Goal verification at depth <d>", goal, rule_used, result,
  status: "Proven"}`. -/
  | goalProven (depth : Nat) (goal : String) (ruleUsed : String) (result : String)
      (status : String)
  /-- `{step: "Goal verification at depth <d>", goal, result, status:
  "Failed"}` (no rule_used field). -/
  | goalFailed (depth : Nat) (goal : String) (result : String) (status : String)
deriving DecidableEq

/-- The engine state: `self.rules`, `self.facts`, `self.inference_trace`. -/
structure ExpertSystem where
  rules : List Rule
  facts : List Fact
  trace : List TraceStep
deriving DecidableEq

/-- `Fact.__init__`: raises `ValueError` on empty statement or confidence
outside `[0.0, 1.0]` (the `isinstance` checks cannot fail for typed
arguments). -/
def mkFact (statement : String) (confidence : ℚ) (source : String) :
    Except String Fact :=
  if statement = "" then .error "Fact statement cannot be empty"
  else if ¬ (0 ≤ confidence ∧ confidence ≤ 1) then
    .error "Confidence must be between 0.0 and 1.0"
  else .ok ⟨statement, confidence, source⟩

/-- `Rule.__init__`: raises `ValueError` on empty name, empty antecedents
or empty consequents (the `isinstance` checks cannot fail for typed
arguments). -/
def mkRule (name : String) (antecedents : List String)
    (consequents : List String) (description : String) : Except String Rule :=
  if name = "" then .error "Rule name cannot be empty"
  else if antecedents = [] then .error "Rule must have at least one antecedent"
  else if consequents = [] then .error "Rule must have at least one consequent"
  else .ok ⟨name, antecedents, consequents, description⟩

/-- Working-memory lookup `self.facts[statement]`, as an `Option`. -/
def findFact (facts : List Fact) (s : String) : Option Fact :=
  facts.find? (fun f => f.statement == s)

/-- `ExpertSystem.fact_exists`: `statement in self.facts`. -/
def factExists (facts : List Fact) (s : String) : Bool :=
  (findFact facts s).isSome

/-- Knowledge-base lookup `self.rules[name]`, as an `Option`. -/
def findRule (rules : List Rule) (n : String) : Option Rule :=
  rules.find? (fun r => r.name == n)

/-- Dict assignment `self.facts[fact.statement] = fact`: overwrite the
entry in place when the key is present, append otherwise. -/
def insertFact (facts : List Fact) (f : Fact) : List Fact :=
  if facts.any (fun g => g.statement == f.statement) then
    facts.map (fun g => if g.statement == f.statement then f else g)
  else facts ++ [f]

/-- `ExpertSystem.add_fact` (validation passes for well-typed `Fact`
values, which are the only ones the engines construct). -/
def addFact (es : ExpertSystem) (f : Fact) : ExpertSystem :=
  { es with facts := insertFact es.facts f }

/-- `self.inference_trace.append(record)`. -/
def pushTrace (es : ExpertSystem) (t : TraceStep) : ExpertSystem :=
  { es with trace := es.trace ++ [t] }

/-- `self.facts[s]` where the caller has established presence; the default
is never reached at any call site (Python would raise `KeyError` there). -/
def factsGet (facts : List Fact) (s : String) : Fact :=
  (findFact facts s).getD ⟨s, 1, ""⟩

/-- Python `min` over a list of confidences:
`min(antecedent_confidences) if antecedent_confidences else 1.0`. -/
def listMin : List ℚ → ℚ
  | [] => 1
  | c :: cs => cs.foldl min c

/-- `min(self.facts[ant].confidence for ant in antecedents)` with the
empty-list default `1.0`. -/
def minConf (facts : List Fact) (ants : List String) : ℚ :=
  listMin (ants.map (fun a => (factsGet facts a).confidence))

/-- The candidate scan of one `forward_chain` round: skip a rule when all
its consequents are already facts, collect it when additionally all its
antecedents are facts (`applicable_rules`). -/
def applicable (rules : List Rule) (facts : List Fact) : List Rule :=
  rules.filter (fun r =>
    !(r.consequents.all (fun c => factExists facts c)) &&
    r.antecedents.all (fun a => factExists facts a))

/-- The inner consequent loop of `forward_chain` for one applicable rule:
assert each consequent that is not yet a fact, with confidence
`min(antecedent confidences)` read from the working memory at that moment
and source `"Rule: " + rule.name`.  The Bool is `new_facts_in_rule`. -/
def applyConsequents : List Fact → Rule → List String → List Fact × Bool
  | facts, _, [] => (facts, false)
  | facts, r, c :: cs =>
    if factExists facts c then applyConsequents facts r cs
    else
      ((applyConsequents
        (insertFact facts ⟨c, minConf facts r.antecedents, "Rule: " ++ r.name⟩) r cs).1,
       true)

/-- The `for rule in applicable_rules` loop of one round: apply each rule
and, when it asserted anything, append its trace record.  The Bool is the
round's `new_facts_added`. -/
def applyRound : List Fact → List TraceStep → Nat → List Rule →
    List Fact × List TraceStep × Bool
  | facts, trace, _, [] => (facts, trace, false)
  | facts, trace, iter, r :: rs =>
    let res := applyConsequents facts r r.consequents
    let trace1 :=
      if res.2 then
        trace ++ [TraceStep.forward iter r.name r.description
          (r.antecedents.map (factsGet res.1))
          (((r.consequents.filter
              (fun c => (factsGet res.1 c).source == "Rule: " ++ r.name)).map
            (factsGet res.1)))]
      else trace
    let rest := applyRound res.1 trace1 iter rs
    (rest.1, rest.2.1, res.2 || rest.2.2)

/-- The `while new_facts_added` loop of `forward_chain`, with fuel.
`iter` holds the value of `iteration` before the round increments it. -/
def forwardLoop : Nat → List Rule → List Fact → List TraceStep → Nat →
    List Fact × List TraceStep
  | 0, _, facts, trace, _ => (facts, trace)
  | fuel + 1, rules, facts, trace, iter =>
    let apps := applicable rules facts
    if apps.isEmpty then (facts, trace)
    else
      let res := applyRound facts trace (iter + 1) apps
      if res.2.2 then forwardLoop fuel rules res.1 res.2.1 (iter + 1)
      else (res.1, res.2.1)

/-- Fuel that provably suffices for the `forward_chain` loop: each
productive round asserts at least one consequent statement that was
missing, so one round per consequent occurrence plus one closing round. -/
def ffFuel (es : ExpertSystem) : Nat :=
  (es.rules.flatMap (fun r => r.consequents)).length + 1

/-- `ExpertSystem.forward_chain`: clears the trace, runs the fixpoint loop
and returns the trace (mutating the engine state). -/
def forward_chain (es : ExpertSystem) : ExpertSystem × List TraceStep :=
  let res := forwardLoop (ffFuel es) es.rules es.facts [] 0
  ({ es with facts := res.1, trace := res.2 }, res.2)

/-- The three syntactic positions of `_backward_chain_recursive`: the
entry of one recursive call, the `for rule in relevant_rules` loop, and
the `for antecedent in rule.antecedents` loop. -/
inductive BCCall where
  | goal (g : String) (visited : List String) (depth : Nat)
  | rules (g : String) (rs : List Rule) (visited : List String) (depth : Nat)
  | ants (l : List String) (visited : List String) (depth : Nat)

/-- The successful-rule exit of `_backward_chain_recursive`: assert the
goal if missing, with confidence `min(antecedent confidences)` and source
`"Backward chaining: " + rule.name`, then append the Proven record. -/
def provenResult (es : ExpertSystem) (g : String) (r : Rule) (d : Nat) :
    ExpertSystem :=
  let es1 :=
    if factExists es.facts g then es
    else addFact es ⟨g, minConf es.facts r.antecedents, "Backward chaining: " ++ r.name⟩
  pushTrace es1 (.goalProven d g r.name "All antecedents satisfied" "Proven")

/-- `_backward_chain_recursive`, fuelled.  `visited` is the ancestor set
(a Python `set` used only for membership, so a list of the goals added);
each recursive call receives `deepcopy` of the set with the current goal
added, so sibling branches share exactly the ancestor chain. -/
def bcRun : Nat → ExpertSystem → BCCall → Option (Bool × ExpertSystem)
  | 0, _, _ => none
  | fuel + 1, es, .goal g V d =>
    if g ∈ V then
      some (false, pushTrace es (.recursionCheck d g "Circular reasoning detected" "Failed"))
    else
      let relevant := es.rules.filter (fun r => r.consequents.contains g)
      if relevant.isEmpty then
        some (factExists es.facts g,
          pushTrace es (.goalExploration d g "No rules found that infer this goal"
            (if factExists es.facts g then "Proven" else "Failed")))
      else bcRun fuel es (.rules g relevant (g :: V) d)
  | _ + 1, es, .rules g [] _ d =>
    some (false, pushTrace es (.goalFailed d g "No applicable rules could satisfy all conditions" "Failed"))
  | fuel + 1, es, .rules g (r :: rest) V d =>
    let es1 := pushTrace es (.ruleExam d r.name r.description g r.antecedents)
    match bcRun fuel es1 (.ants r.antecedents V d) with
    | none => none
    | some (true, es2) => some (true, provenResult es2 g r d)
    | some (false, es2) => bcRun fuel es2 (.rules g rest V d)
  | _ + 1, es, .ants [] _ _ => some (true, es)
  | fuel + 1, es, .ants (a :: rest) V d =>
    if factExists es.facts a then bcRun fuel es (.ants rest V d)
    else
      match bcRun fuel es (.goal a V (d + 1)) with
      | none => none
      | some (true, es1) => bcRun fuel es1 (.ants rest V d)
      | some (false, es1) => some (false, es1)

/-- All antecedent occurrences of the knowledge base; recursive sub-goals
of backward chaining range over this list. -/
def allAnts (rules : List Rule) : List String :=
  rules.flatMap (fun r => r.antecedents)

/-- Fuel that provably suffices for `_backward_chain_recursive` (proved
below): the ancestor chain visits each antecedent at most once and every
intermediate step costs at most one rule or one antecedent. -/
def bcFuel (es : ExpertSystem) : Nat :=
  ((allAnts es.rules).length + 2) *
    ((allAnts es.rules).length + es.rules.length + 3)

/-- `ExpertSystem.backward_chain(goal)`: clears the trace, succeeds at once
on a known goal, else starts the recursion with an empty ancestor set at
depth 1.  The Python return value is the pair `(Bool, state.trace)`; the
state carries the working-memory side effects. -/
def backward_chain (es : ExpertSystem) (goal : String) :
    Option (Bool × ExpertSystem) :=
  let es0 : ExpertSystem := { es with trace := [] }
  if factExists es0.facts goal then
    some (true, pushTrace es0 (.goalKnown goal "Proven"))
  else bcRun (bcFuel es0) es0 (.goal goal [] 1)

/-- One explanation entry of `explain_fact`: the three dict shapes the
method appends. -/
inductive ExplainEntry where
  /-- `{"explanation": ...}` -/
  | message (explanation : String)
  /-- `{"fact", "derived_by", "rule_description", "confidence", "antecedents"}` -/
  | derived (fact : String) (derivedBy : String) (ruleDescription : String)
      (confidence : ℚ) (antecedents : List String)
  /-- `{"fact", "proven_by", "rule_description", "confidence", "antecedents_proven"}` -/
  | proven (fact : String) (provenBy : String) (ruleDescription : String)
      (confidence : ℚ) (antecedentsProven : List String)
deriving DecidableEq

/-- How an `explain_fact` call can fail to produce a value: `indexError`
models the Python `IndexError` of `source.split(": ")[1]` on a source with
no `": "`; `outOfFuel` models non-termination of the guard-free recursion. -/
inductive ExplainErr where
  | indexError
  | outOfFuel
deriving DecidableEq

deriving instance DecidableEq for Except

/-- Python `str.startswith`. -/
def strStartsWith (s pre : String) : Bool :=
  pre.data.isPrefixOf s.data

/-- The suffix after the first occurrence of `sep`, if any. -/
def afterSep (sep : List Char) : List Char → Option (List Char)
  | [] => none
  | c :: cs =>
    if sep.isPrefixOf (c :: cs) then some ((c :: cs).drop sep.length)
    else afterSep sep cs

/-- The prefix up to the first occurrence of `sep` (all of it if none). -/
def uptoSep (sep : List Char) : List Char → List Char
  | [] => []
  | c :: cs =>
    if sep.isPrefixOf (c :: cs) then []
    else c :: uptoSep sep cs

/-- Python `s.split(sep)[1]` for non-empty `sep`: the chunk between the
first separator occurrence and the next (or the end); `none` when the
separator does not occur, in which case Python raises `IndexError`. -/
def splitIndex1 (sep : List Char) (s : List Char) : Option (List Char) :=
  (afterSep sep s).map (uptoSep sep)

/-- The two recursion positions of `explain_fact`: one statement, or the
`for antecedent in rule.antecedents` extension loop. -/
inductive ExplainCall where
  | fact (s : String)
  | many (l : List String)

/-- `ExpertSystem.explain_fact`, fuelled.  Faithful to the branch order of
the source: missing fact, directly-provided source, `"Rule:"` prefix,
`"Backward chaining:"` prefix, and the fall-through that returns the
still-empty `explanation` list. -/
def explainRun : Nat → ExpertSystem → ExplainCall → Except ExplainErr (List ExplainEntry)
  | 0, _, _ => .error .outOfFuel
  | fuel + 1, es, .fact stmt =>
    match findFact es.facts stmt with
    | none => .ok [.message ("Fact \x27" ++ stmt ++ "\x27 does not exist in working memory.")]
    | some fact =>
      if fact.source == "" || strStartsWith fact.source "user input" then
        .ok [.message ("Fact \x27" ++ stmt ++ "\x27 was directly provided as input.")]
      else if strStartsWith fact.source "Rule:" then
        match splitIndex1 (": ").data fact.source.data with
        | none => .error .indexError
        | some rn =>
          match findRule es.rules (String.mk rn) with
          | none => .ok []
          | some rule =>
            match explainRun fuel es (.many rule.antecedents) with
            | .error e => .error e
            | .ok rest =>
              .ok (.derived stmt (String.mk rn) rule.description fact.confidence
                rule.antecedents :: rest)
      else if strStartsWith fact.source "Backward chaining:" then
        match splitIndex1 (": ").data fact.source.data with
        | none => .error .indexError
        | some rn =>
          match findRule es.rules (String.mk rn) with
          | none => .ok []
          | some rule =>
            match explainRun fuel es (.many rule.antecedents) with
            | .error e => .error e
            | .ok rest =>
              .ok (.proven stmt (String.mk rn) rule.description fact.confidence
                rule.antecedents :: rest)
      else .ok []
  | _ + 1, _, .many [] => .ok []
  | fuel + 1, es, .many (a :: rest) =>
    match explainRun fuel es (.fact a) with
    | .error e => .error e
    | .ok e =>
      match explainRun fuel es (.many rest) with
      | .error e2 => .error e2
      | .ok r => .ok (e ++ r)

/-- `ExpertSystem.explain_fact(statement)`, fuelled. -/
def explainFact (fuel : Nat) (es : ExpertSystem) (s : String) :
    Except ExplainErr (List ExplainEntry) :=
  explainRun fuel es (.fact s)

/-! ### Semantic predicates and measures used by the proofs -/

/-- The working memory can only have grown: every present entry is still
present, with the same `Fact` value. -/
def FactsLe (l l' : List Fact) : Prop :=
  ∀ s f, findFact l s = some f → findFact l' s = some f

/-- Every fact of `cur` was either already in `init`, or was asserted by
some rule: its statement is among that rule's consequents, its source is
`"Rule: " + name`, the rule's antecedents are all present, and its
confidence is the minimum of their (unchanged) confidences. -/
def DerivedInv (rules : List Rule) (init cur : List Fact) : Prop :=
  ∀ s f, findFact cur s = some f → findFact init s = some f ∨
    ∃ r, r ∈ rules ∧ s ∈ r.consequents ∧ f.source = "Rule: " ++ r.name ∧
      (∀ a ∈ r.antecedents, factExists cur a = true) ∧
      f.confidence = minConf cur r.antecedents

/-- The number of consequent occurrences not yet in working memory; the
measure that every productive round strictly decreases. -/
def missingCount (rules : List Rule) (facts : List Fact) : Nat :=
  ((rules.flatMap (fun r => r.consequents)).filter
    (fun c => !(factExists facts c))).length


/-- What every backward-chaining step preserves: the knowledge base is
untouched and every working-memory entry survives unchanged. -/
def StatePres (es es' : ExpertSystem) : Prop :=
  es'.rules = es.rules ∧ FactsLe es.facts es'.facts

/-- The second factor of `bcFuel`: an upper bound on the number of steps
between one recursive goal entry and the next (one goal step, at most one
rule step per relevant rule, at most one step per antecedent, plus slack). -/
def bcC (rules : List Rule) : Nat :=
  (allAnts rules).length + rules.length + 3

/-- The number of antecedent occurrences not yet on the ancestor chain:
the quantity that shrinks when a goal is added to `visited`. -/
def missA (rules : List Rule) (V : List String) : Nat :=
  ((allAnts rules).filter (fun a => decide (a ∉ V))).length

/-- A fuel budget sufficient for each recursion position of `bcRun`
(established by `bcRun_total`). -/
def bcCond (rules : List Rule) (fuel : Nat) : BCCall → Prop
  | .goal g V _ =>
    fuel ≥ (missA rules V + (if g ∈ allAnts rules then 1 else 2)) * bcC rules
  | .rules _ rs V _ => (∀ r ∈ rs, r ∈ rules) ∧
      fuel ≥ (missA rules V + 1) * bcC rules + (allAnts rules).length + rs.length + 2
  | .ants l V _ => (∀ a ∈ l, a ∈ allAnts rules) ∧
      fuel ≥ (missA rules V + 1) * bcC rules + l.length + 1

/-! ### Concrete engine states for witnesses and counterexamples -/

/-- The rational 4/5 (a `0.8` confidence). -/
def q45 : ℚ := ⟨4, 5, by decide, by decide⟩

/-- The rational 9/10 (a `0.9` confidence). -/
def q910 : ℚ := ⟨9, 10, by decide, by decide⟩

/-- A one-rule knowledge base with its two antecedents as user facts. -/
def esFC : ExpertSystem :=
  ⟨[⟨"R1", ["p", "q"], ["d"], "combines p and q"⟩],
   [⟨"p", q45, "user input"⟩, ⟨"q", q910, "user input"⟩], []⟩

/-- The head rule of `esFC`. -/
def rFC : Rule := ⟨"R1", ["p", "q"], ["d"], "combines p and q"⟩

/-- The cyclic knowledge base of the specification: rule A's consequent is
rule B's sole antecedent and vice versa, with empty working memory. -/
def cycES : ExpertSystem :=
  ⟨[⟨"A", ["b"], ["a"], ""⟩, ⟨"B", ["a"], ["b"], ""⟩], [], []⟩

/-- Backward chaining on `"g"` proves the sub-goal `"p"` by RP, then fails
on `"q"`: the overall call fails but `"p"` stays asserted. -/
def esBC : ExpertSystem :=
  ⟨[⟨"RG", ["p", "q"], ["g"], ""⟩, ⟨"RP", ["x"], ["p"], ""⟩],
   [⟨"x", 1, ""⟩], []⟩

/-- A store with one directly-provided fact (empty source) and no rules. -/
def esSmall : ExpertSystem := ⟨[], [⟨"a", 1, ""⟩], []⟩

/-- The state `backward_chain esSmall "g"` returns: the goal-exploration
failure record appended, stores untouched. -/
def esSmallOut : ExpertSystem :=
  ⟨[], [⟨"a", 1, ""⟩],
   [TraceStep.goalExploration 1 "g" "No rules found that infer this goal" "Failed"]⟩

/-- A known fact whose free-form source is no recognized marker. -/
def esM : ExpertSystem := ⟨[], [⟨"a", 1, "manual entry"⟩], []⟩

/-- A known fact whose source starts with `"Rule:"` but has no `": "`. -/
def esX : ExpertSystem := ⟨[], [⟨"a", 1, "Rule:x"⟩], []⟩

/-- A known fact recorded as derived by a rule absent from the knowledge
base. -/
def esD : ExpertSystem := ⟨[], [⟨"a", 1, "Rule: ghost"⟩], []⟩

/-- First relevant rule for goal `"g"`: provable from the fact `"p"`. -/
def rC4a : Rule := ⟨"R1", ["p"], ["g"], ""⟩

/-- Second relevant rule for goal `"g"`; never examined. -/
def rC4b : Rule := ⟨"R2", ["zz"], ["g"], ""⟩

/-- State in which goal `"g"` is provable by `rC4a` at once. -/
def esC4 : ExpertSystem := ⟨[rC4a, rC4b], [⟨"p", q45, "user input"⟩], []⟩

/-- `esC4` after the examination record of `rC4a` for goal `"g"` (the state
in which its antecedent loop returns). -/
def esC4x : ExpertSystem :=
  ⟨[rC4a, rC4b], [⟨"p", q45, "user input"⟩],
   [TraceStep.ruleExam 1 "R1" "" "g" ["p"]]⟩

/-! ### Basic store lemmas -/

theorem any_eq_isSome_find? {α : Type} (l : List α) (p : α → Bool) :
    l.any p = (l.find? p).isSome := by
  induction l with
  | nil => rfl
  | cons a l ih =>
    simp only [List.any_cons, List.find?_cons]
    cases h : p a <;> simp [h, ih]

theorem findFact_append_left {l : List Fact} {s : String} {f : Fact}
    (h : findFact l s = some f) (l2 : List Fact) :
    findFact (l ++ l2) s = some f := by
  induction l with
  | nil => simp [findFact, List.find?] at h
  | cons a l ih =>
    simp only [findFact, List.find?] at h ⊢
    cases hp : (a.statement == s) with
    | true => simpa [hp] using h
    | false =>
      simp only [hp] at h ⊢
      exact ih h

theorem findFact_append_none {l : List Fact} {s : String}
    (h : findFact l s = none) (l2 : List Fact) :
    findFact (l ++ l2) s = findFact l2 s := by
  induction l with
  | nil => simp [findFact]
  | cons a l ih =>
    simp only [findFact, List.find?] at h ⊢
    cases hp : (a.statement == s) with
    | true => simp [hp] at h
    | false =>
      simp only [hp] at h ⊢
      exact ih h

theorem insertFact_of_missing {l : List Fact} {f : Fact}
    (h : factExists l f.statement = false) : insertFact l f = l ++ [f] := by
  unfold insertFact
  rw [any_eq_isSome_find?]
  simp only [factExists, findFact] at h
  simp [h]

theorem factsLe_refl (l : List Fact) : FactsLe l l := fun _ _ h => h

theorem factsLe_trans {l1 l2 l3 : List Fact} (h1 : FactsLe l1 l2)
    (h2 : FactsLe l2 l3) : FactsLe l1 l3 :=
  fun s f h => h2 s f (h1 s f h)

theorem factsLe_append (l l2 : List Fact) : FactsLe l (l ++ l2) :=
  fun _ _ h => findFact_append_left h l2

theorem factsLe_insert_missing {l : List Fact} {f : Fact}
    (h : factExists l f.statement = false) : FactsLe l (insertFact l f) := by
  rw [insertFact_of_missing h]
  exact factsLe_append l [f]

theorem factExists_of_le {l l' : List Fact} (h : FactsLe l l') {s : String}
    (he : factExists l s = true) : factExists l' s = true := by
  simp only [factExists, Option.isSome_iff_exists] at he ⊢
  obtain ⟨f, hf⟩ := he
  exact ⟨f, h s f hf⟩

theorem factsGet_of_le {l l' : List Fact} (h : FactsLe l l') {s : String}
    (he : factExists l s = true) : factsGet l' s = factsGet l s := by
  simp only [factExists, Option.isSome_iff_exists] at he
  obtain ⟨f, hf⟩ := he
  simp [factsGet, hf, h s f hf]

theorem minConf_of_le {l l' : List Fact} (h : FactsLe l l') {ants : List String}
    (he : ∀ a ∈ ants, factExists l a = true) :
    minConf l' ants = minConf l ants := by
  unfold minConf
  congr 1
  apply List.map_congr_left
  intro a ha
  rw [factsGet_of_le h (he a ha)]

theorem findFact_insert_self {l : List Fact} {f : Fact}
    (h : factExists l f.statement = false) :
    findFact (insertFact l f) f.statement = some f := by
  rw [insertFact_of_missing h]
  rw [findFact_append_none (by simpa [factExists, Option.isSome_iff_exists,
    Option.eq_none_iff_forall_not_mem] using h) [f]]
  simp [findFact, List.find?]

theorem findFact_append_single_new {l : List Fact} {f : Fact} {s : String}
    (h : findFact l s = none) (hf : findFact (l ++ [f]) s ≠ none) :
    findFact (l ++ [f]) s = some f ∧ f.statement = s := by
  rw [findFact_append_none h [f]] at hf ⊢
  simp only [findFact, List.find?] at hf ⊢
  cases hp : (f.statement == s) with
  | true => simp [hp]; exact eq_of_beq hp
  | false => simp [hp] at hf

/-! ### Forward chaining: monotonicity -/

theorem applyConsequents_le (facts : List Fact) (r : Rule) (cs : List String) :
    FactsLe facts (applyConsequents facts r cs).1 := by
  induction cs generalizing facts with
  | nil => exact factsLe_refl _
  | cons c cs ih =>
    simp only [applyConsequents]
    split
    · exact ih facts
    · rename_i h
      exact factsLe_trans
        (factsLe_insert_missing (by simpa using Bool.not_eq_true _ ▸ h)) (ih _)

theorem applyRound_le (facts : List Fact) (trace : List TraceStep) (iter : Nat)
    (rs : List Rule) : FactsLe facts (applyRound facts trace iter rs).1 := by
  induction rs generalizing facts trace with
  | nil => exact factsLe_refl _
  | cons r rs ih =>
    exact factsLe_trans (applyConsequents_le facts r r.consequents) (ih _ _)

theorem forwardLoop_le (fuel : Nat) (rules : List Rule) (facts : List Fact)
    (trace : List TraceStep) (iter : Nat) :
    FactsLe facts (forwardLoop fuel rules facts trace iter).1 := by
  induction fuel generalizing facts trace iter with
  | zero => exact factsLe_refl _
  | succ fuel ih =>
    simp only [forwardLoop]
    split
    · exact factsLe_refl _
    · split
      · exact factsLe_trans (applyRound_le _ _ _ _) (ih _ _ _)
      · exact applyRound_le _ _ _ _

theorem forward_chain_le (es : ExpertSystem) :
    FactsLe es.facts (forward_chain es).1.facts := by
  simpa only [forward_chain] using forwardLoop_le (ffFuel es) es.rules es.facts [] 0

theorem forward_chain_rules (es : ExpertSystem) :
    (forward_chain es).1.rules = es.rules := rfl

/-! ### Forward chaining: the round-start candidate scan -/

theorem mem_applicable_iff (rules : List Rule) (facts : List Fact) (r : Rule) :
    r ∈ applicable rules facts ↔
      r ∈ rules ∧ ¬ (∀ c ∈ r.consequents, factExists facts c = true) ∧
        (∀ a ∈ r.antecedents, factExists facts a = true) := by
  simp [applicable, List.mem_filter, List.all_eq_true]

theorem applyRound_trace_mem {facts : List Fact} {trace : List TraceStep}
    {iter : Nat} {rs : List Rule} {step : TraceStep}
    (h : step ∈ (applyRound facts trace iter rs).2.1) :
    step ∈ trace ∨ ∃ r ∈ rs, ∃ ants nf,
      step = TraceStep.forward iter r.name r.description ants nf := by
  induction rs generalizing facts trace with
  | nil => exact Or.inl h
  | cons r rs ih =>
    simp only [applyRound] at h
    rcases ih h with h1 | ⟨r', hr', ants, nf, hstep⟩
    · cases hadd : (applyConsequents facts r r.consequents).2 with
      | true =>
        rw [hadd, if_pos rfl] at h1
        rcases List.mem_append.1 h1 with h2 | h2
        · exact Or.inl h2
        · have h3 := List.mem_singleton.1 h2
          exact Or.inr ⟨r, List.mem_cons_self r rs, _, _, h3⟩
      | false =>
        rw [hadd, if_neg Bool.false_ne_true] at h1
        exact Or.inl h1
    · exact Or.inr ⟨r', List.mem_cons_of_mem r hr', ants, nf, hstep⟩

/-! ### Forward chaining: the loop reaches the fixpoint -/

theorem filter_len_mono {α : Type} (p q : α → Bool) (l : List α)
    (h : ∀ x ∈ l, p x = true → q x = true) :
    (l.filter p).length ≤ (l.filter q).length := by
  induction l with
  | nil => simp
  | cons a l ih =>
    have hrest : ∀ x ∈ l, p x = true → q x = true :=
      fun x hx => h x (List.mem_cons_of_mem a hx)
    simp only [List.filter]
    cases hp : p a with
    | true =>
      rw [h a (List.mem_cons_self a l) hp]
      simpa using ih hrest
    | false =>
      cases hq : q a with
      | true => exact Nat.le_succ_of_le (ih hrest)
      | false => exact ih hrest

theorem filter_len_lt {α : Type} (p q : α → Bool) (l : List α)
    (h : ∀ x ∈ l, p x = true → q x = true)
    (x : α) (hx : x ∈ l) (hqx : q x = true) (hpx : p x = false) :
    (l.filter p).length < (l.filter q).length := by
  induction l with
  | nil => simp at hx
  | cons a l ih =>
    have hrest : ∀ y ∈ l, p y = true → q y = true :=
      fun y hy => h y (List.mem_cons_of_mem a hy)
    rcases List.mem_cons.1 hx with rfl | hx'
    · simp only [List.filter, hpx, hqx]
      exact Nat.lt_succ_of_le (filter_len_mono p q l hrest)
    · simp only [List.filter]
      cases hp : p a with
      | true =>
        rw [h a (List.mem_cons_self a l) hp]
        simpa using ih hrest hx'
      | false =>
        cases hq : q a with
        | true => exact Nat.lt_succ_of_lt (ih hrest hx')
        | false => exact ih hrest hx'

theorem missingCount_le_of_le {rules : List Rule} {l l' : List Fact}
    (h : FactsLe l l') : missingCount rules l' ≤ missingCount rules l := by
  apply filter_len_mono
  intro c _ hc
  simp only [Bool.not_eq_true'] at hc ⊢
  cases he : factExists l c with
  | false => rfl
  | true => rw [factExists_of_le h he] at hc; exact hc

theorem applyConsequents_all_exist (facts : List Fact) (r : Rule)
    (cs : List String) (c : String) (hc : c ∈ cs) :
    factExists (applyConsequents facts r cs).1 c = true := by
  induction cs generalizing facts with
  | nil => simp at hc
  | cons c0 cs ih =>
    simp only [applyConsequents]
    rcases List.mem_cons.1 hc with rfl | hc'
    · split
      · rename_i h
        exact factExists_of_le (applyConsequents_le _ _ _) h
      · rename_i h
        rw [Bool.not_eq_true] at h
        refine factExists_of_le (applyConsequents_le _ _ _) ?_
        have := findFact_insert_self (l := facts)
          (f := ⟨c, minConf facts r.antecedents, "Rule: " ++ r.name⟩) h
        simp [factExists, this]
    · split
      · exact ih _ hc'
      · exact ih _ hc'

theorem applyConsequents_added {facts : List Fact} {r : Rule}
    {cs : List String} (h : ∃ c ∈ cs, factExists facts c = false) :
    (applyConsequents facts r cs).2 = true := by
  induction cs generalizing facts with
  | nil => simp at h
  | cons c0 cs ih =>
    obtain ⟨c, hc, hmiss⟩ := h
    simp only [applyConsequents]
    split
    · rename_i hex
      rcases List.mem_cons.1 hc with rfl | hc'
      · rw [hex] at hmiss; cases hmiss
      · exact ih ⟨c, hc', hmiss⟩
    · rfl

theorem applicable_head_missing {rules : List Rule} {facts : List Fact}
    {r : Rule} {rs : List Rule} (h : applicable rules facts = r :: rs) :
    r ∈ rules ∧ ∃ c ∈ r.consequents, factExists facts c = false := by
  have hr : r ∈ applicable rules facts := by rw [h]; exact List.mem_cons_self r rs
  rw [mem_applicable_iff] at hr
  obtain ⟨hmem, hnc, _⟩ := hr
  refine ⟨hmem, ?_⟩
  by_contra hall
  push_neg at hall
  exact hnc (fun c hc => by
    have := hall c hc
    cases hx : factExists facts c with
    | true => rfl
    | false => exact absurd hx this)

theorem applyRound_missing_lt {rules : List Rule} {facts : List Fact}
    {trace : List TraceStep} {iter : Nat} {r : Rule} {rs : List Rule}
    (h : applicable rules facts = r :: rs) :
    missingCount rules (applyRound facts trace iter (r :: rs)).1 <
      missingCount rules facts := by
  obtain ⟨hmem, c, hc, hmiss⟩ := applicable_head_missing h
  refine filter_len_lt _ _ _ ?_ c ?_ ?_ ?_
  · intro x _ hx
    simp only [Bool.not_eq_true'] at hx ⊢
    cases he : factExists facts x with
    | false => rfl
    | true => rw [factExists_of_le (applyRound_le facts trace iter (r :: rs)) he] at hx; exact hx
  · exact List.mem_flatMap.2 ⟨r, hmem, hc⟩
  · simp [hmiss]
  · have h1 : factExists (applyConsequents facts r r.consequents).1 c = true :=
      applyConsequents_all_exist facts r r.consequents c hc
    have h2 : factExists (applyRound facts trace iter (r :: rs)).1 c = true := by
      simp only [applyRound]
      exact factExists_of_le (applyRound_le _ _ _ _) h1
    simp [h2]

theorem applyRound_added_of_head {rules : List Rule} {facts : List Fact}
    {trace : List TraceStep} {iter : Nat} {r : Rule} {rs : List Rule}
    (h : applicable rules facts = r :: rs) :
    (applyRound facts trace iter (r :: rs)).2.2 = true := by
  obtain ⟨_, c, hc, hmiss⟩ := applicable_head_missing h
  simp only [applyRound]
  rw [applyConsequents_added ⟨c, hc, hmiss⟩]
  rfl

theorem forwardLoop_fix {fuel : Nat} {rules : List Rule} {facts : List Fact}
    {trace : List TraceStep} {iter : Nat}
    (h : missingCount rules facts < fuel) :
    applicable rules (forwardLoop fuel rules facts trace iter).1 = [] := by
  induction fuel generalizing facts trace iter with
  | zero => exact absurd h (Nat.not_lt_zero _)
  | succ fuel ih =>
    simp only [forwardLoop]
    cases happ : applicable rules facts with
    | nil => simpa using happ
    | cons r rs =>
      rw [if_neg (by simp)]
      rw [applyRound_added_of_head happ, if_pos rfl]
      apply ih
      have hlt := @applyRound_missing_lt rules facts trace (iter + 1) r rs happ
      omega

theorem forward_chain_fix (es : ExpertSystem) :
    applicable es.rules (forward_chain es).1.facts = [] := by
  simp only [forward_chain]
  apply forwardLoop_fix
  have : missingCount es.rules es.facts ≤
      (es.rules.flatMap (fun r => r.consequents)).length :=
    List.length_filter_le _ _
  simp only [ffFuel]
  omega

/-! ### Forward chaining: provenance of asserted facts

Antecedent entries of an applicable rule are never overwritten during a
run (assertions are guarded by `fact_exists`), so the minimum of the
antecedent confidences read at the moment of assertion equals the minimum
read in any later state of the same run; the invariant records it against
the current state. -/

theorem derivedInv_lift {rules : List Rule} {init cur cur' : List Fact}
    (hle : FactsLe cur cur')
    (hnew : ∀ s f, findFact cur s = none → findFact cur' s = some f →
      ∃ r, r ∈ rules ∧ s ∈ r.consequents ∧ f.source = "Rule: " ++ r.name ∧
        (∀ a ∈ r.antecedents, factExists cur' a = true) ∧
        f.confidence = minConf cur' r.antecedents)
    (hstable : ∀ ants : List String, (∀ a ∈ ants, factExists cur a = true) →
      minConf cur' ants = minConf cur ants)
    (hinv : DerivedInv rules init cur) : DerivedInv rules init cur' := by
  intro s f hf
  cases hold : findFact cur s with
  | some f0 =>
    have heq : f = f0 := by
      have := hle s f0 hold
      rw [this] at hf
      exact (Option.some.inj hf).symm
    subst heq
    rcases hinv s f hold with hl | ⟨r', hr', hs, hsrc, ha', hcf⟩
    · exact Or.inl hl
    · refine Or.inr ⟨r', hr', hs, hsrc,
        fun a ha => factExists_of_le hle (ha' a ha), ?_⟩
      rw [hstable r'.antecedents ha']
      exact hcf
  | none => exact Or.inr (hnew s f hold hf)

theorem derivedInv_insert {rules : List Rule} {init facts : List Fact}
    {r : Rule} {c : String}
    (hr : r ∈ rules) (hc : c ∈ r.consequents)
    (hants : ∀ a ∈ r.antecedents, factExists facts a = true)
    (hmiss : factExists facts c = false)
    (hinv : DerivedInv rules init facts) :
    DerivedInv rules init
      (insertFact facts ⟨c, minConf facts r.antecedents, "Rule: " ++ r.name⟩) := by
  have hle : FactsLe facts
      (insertFact facts ⟨c, minConf facts r.antecedents, "Rule: " ++ r.name⟩) :=
    factsLe_insert_missing hmiss
  refine derivedInv_lift hle ?_ (fun ants ha => minConf_of_le hle ha) hinv
  intro s f hold hf
  rw [insertFact_of_missing hmiss] at hf
  obtain ⟨hf_eq, hstmt⟩ := findFact_append_single_new hold (by rw [hf]; simp)
  have hfc : f = ⟨c, minConf facts r.antecedents, "Rule: " ++ r.name⟩ := by
    rw [hf] at hf_eq
    exact Option.some.inj hf_eq
  subst hfc
  have hs : s = c := by simpa using hstmt.symm
  subst hs
  refine ⟨r, hr, hc, rfl, fun a ha => factExists_of_le hle (hants a ha), ?_⟩
  rw [minConf_of_le hle hants]

theorem applyConsequents_inv {rules : List Rule} {init facts : List Fact}
    {r : Rule} {cs : List String}
    (hr : r ∈ rules) (hcs : ∀ c ∈ cs, c ∈ r.consequents)
    (hants : ∀ a ∈ r.antecedents, factExists facts a = true)
    (hinv : DerivedInv rules init facts) :
    DerivedInv rules init (applyConsequents facts r cs).1 := by
  induction cs generalizing facts with
  | nil => exact hinv
  | cons c cs ih =>
    simp only [applyConsequents]
    split
    · exact ih (fun c' hc' => hcs c' (List.mem_cons_of_mem c hc')) hants hinv
    · rename_i hmiss
      rw [Bool.not_eq_true] at hmiss
      have hle : FactsLe facts
          (insertFact facts ⟨c, minConf facts r.antecedents, "Rule: " ++ r.name⟩) :=
        factsLe_insert_missing hmiss
      exact ih (fun c' hc' => hcs c' (List.mem_cons_of_mem c hc'))
        (fun a ha => factExists_of_le hle (hants a ha))
        (derivedInv_insert hr (hcs c (List.mem_cons_self c cs)) hants hmiss hinv)

theorem applyRound_inv {rules : List Rule} {init facts : List Fact}
    {trace : List TraceStep} {iter : Nat} {rs : List Rule}
    (hrs : ∀ r ∈ rs, r ∈ rules ∧ ∀ a ∈ r.antecedents, factExists facts a = true)
    (hinv : DerivedInv rules init facts) :
    DerivedInv rules init (applyRound facts trace iter rs).1 := by
  induction rs generalizing facts trace with
  | nil => exact hinv
  | cons r rs ih =>
    obtain ⟨hr, hants⟩ := hrs r (List.mem_cons_self r rs)
    have hle := applyConsequents_le facts r r.consequents
    exact ih
      (fun r' hr' => ⟨(hrs r' (List.mem_cons_of_mem r hr')).1,
        fun a ha => factExists_of_le hle ((hrs r' (List.mem_cons_of_mem r hr')).2 a ha)⟩)
      (applyConsequents_inv hr (fun _ hc => hc) hants hinv)

theorem forwardLoop_inv {rules : List Rule} {init facts : List Fact}
    {trace : List TraceStep} {iter fuel : Nat}
    (hinv : DerivedInv rules init facts) :
    DerivedInv rules init (forwardLoop fuel rules facts trace iter).1 := by
  induction fuel generalizing facts trace iter with
  | zero => exact hinv
  | succ fuel ih =>
    simp only [forwardLoop]
    split
    · exact hinv
    · have happs : ∀ r ∈ applicable rules facts,
          r ∈ rules ∧ ∀ a ∈ r.antecedents, factExists facts a = true := by
        intro r hr
        rw [mem_applicable_iff] at hr
        exact ⟨hr.1, hr.2.2⟩
      split
      · exact ih (applyRound_inv happs hinv)
      · exact applyRound_inv happs hinv

theorem forward_chain_inv (es : ExpertSystem) :
    DerivedInv es.rules es.facts (forward_chain es).1.facts := by
  simpa only [forward_chain] using
    forwardLoop_inv (fun s f h => Or.inl h)

theorem forward_chain_of_fix {es : ExpertSystem}
    (h : applicable es.rules es.facts = []) :
    (forward_chain es).1.facts = es.facts ∧ (forward_chain es).2 = [] := by
  have h1 : ffFuel es = (es.rules.flatMap (fun r => r.consequents)).length + 1 := rfl
  simp only [forward_chain, h1, forwardLoop, h]
  simp

/-! ### Backward chaining: preservation of the stores -/

theorem statePres_refl (es : ExpertSystem) : StatePres es es :=
  ⟨rfl, factsLe_refl _⟩

theorem statePres_trans {e1 e2 e3 : ExpertSystem} (h1 : StatePres e1 e2)
    (h2 : StatePres e2 e3) : StatePres e1 e3 :=
  ⟨h2.1.trans h1.1, factsLe_trans h1.2 h2.2⟩

theorem statePres_pushTrace (es : ExpertSystem) (t : TraceStep) :
    StatePres es (pushTrace es t) :=
  ⟨rfl, factsLe_refl _⟩

theorem statePres_provenResult (es : ExpertSystem) (g : String) (r : Rule)
    (d : Nat) : StatePres es (provenResult es g r d) := by
  unfold provenResult
  refine statePres_trans ?_ (statePres_pushTrace _ _)
  cases hex : factExists es.facts g with
  | true => rw [if_pos rfl]; exact statePres_refl es
  | false =>
    rw [if_neg (by simp)]
    exact ⟨rfl, factsLe_insert_missing hex⟩

theorem bcRun_pres : ∀ (fuel : Nat) (es : ExpertSystem) (c : BCCall)
    (b : Bool) (es' : ExpertSystem),
    bcRun fuel es c = some (b, es') → StatePres es es' := by
  intro fuel
  induction fuel with
  | zero => intro es c b es' h; simp [bcRun] at h
  | succ fuel ih =>
    intro es c b es' h
    cases c with
    | goal g V d =>
      simp only [bcRun] at h
      by_cases hv : g ∈ V
      · rw [if_pos hv] at h
        simp only [Option.some.injEq, Prod.mk.injEq] at h
        rw [← h.2]
        exact statePres_pushTrace es _
      · rw [if_neg hv] at h
        by_cases hrel :
            (es.rules.filter (fun r => r.consequents.contains g)).isEmpty = true
        · rw [if_pos hrel] at h
          simp only [Option.some.injEq, Prod.mk.injEq] at h
          rw [← h.2]
          exact statePres_pushTrace es _
        · rw [if_neg hrel] at h
          exact ih es _ b es' h
    | rules g rs V d =>
      cases rs with
      | nil =>
        simp only [bcRun, Option.some.injEq, Prod.mk.injEq] at h
        rw [← h.2]
        exact statePres_pushTrace es _
      | cons r rest =>
        simp only [bcRun] at h
        cases hm : bcRun fuel
            (pushTrace es (.ruleExam d r.name r.description g r.antecedents))
            (.ants r.antecedents V d) with
        | none => rw [hm] at h; cases h
        | some p =>
          obtain ⟨pb, pes⟩ := p
          rw [hm] at h
          have hp1 := ih _ _ pb pes hm
          cases pb with
          | true =>
            simp only [Option.some.injEq, Prod.mk.injEq] at h
            rw [← h.2]
            exact statePres_trans
              (statePres_pushTrace es (.ruleExam d r.name r.description g r.antecedents))
              (statePres_trans hp1 (statePres_provenResult _ _ _ _))
          | false =>
            exact statePres_trans
              (statePres_pushTrace es (.ruleExam d r.name r.description g r.antecedents))
              (statePres_trans hp1 (ih _ _ b es' h))
    | ants l V d =>
      cases l with
      | nil =>
        simp only [bcRun, Option.some.injEq, Prod.mk.injEq] at h
        rw [← h.2]
        exact statePres_refl es
      | cons a rest =>
        simp only [bcRun] at h
        by_cases hfa : factExists es.facts a = true
        · rw [if_pos hfa] at h
          exact ih es _ b es' h
        · rw [if_neg hfa] at h
          cases hm : bcRun fuel es (.goal a V (d + 1)) with
          | none => rw [hm] at h; cases h
          | some p =>
            obtain ⟨pb, pes⟩ := p
            rw [hm] at h
            have hp1 := ih _ _ pb pes hm
            cases pb with
            | true => exact statePres_trans hp1 (ih _ _ b es' h)
            | false =>
              simp only [Option.some.injEq, Prod.mk.injEq] at h
              rw [← h.2]
              exact hp1

theorem backward_chain_pres {es : ExpertSystem} {g : String} {b : Bool}
    {es' : ExpertSystem} (h : backward_chain es g = some (b, es')) :
    StatePres es es' := by
  unfold backward_chain at h
  by_cases hex : factExists es.facts g = true
  · rw [if_pos hex] at h
    simp only [Option.some.injEq, Prod.mk.injEq] at h
    rw [← h.2]
    exact statePres_pushTrace _ _
  · rw [if_neg hex] at h
    have h2 := bcRun_pres _ _ _ _ _ h
    exact ⟨h2.1, h2.2⟩

/-! ### Backward chaining: the fuel budget suffices -/

theorem allAnts_cons (r0 : Rule) (rs : List Rule) :
    allAnts (r0 :: rs) = r0.antecedents ++ allAnts rs := rfl

theorem mem_allAnts {rules : List Rule} {r : Rule} {a : String}
    (hr : r ∈ rules) (ha : a ∈ r.antecedents) : a ∈ allAnts rules :=
  List.mem_flatMap.2 ⟨r, hr, ha⟩

theorem missA_cons_le (rules : List Rule) (g : String) (V : List String) :
    missA rules (g :: V) ≤ missA rules V := by
  apply filter_len_mono
  intro a _ ha
  simp only [decide_eq_true_eq] at ha ⊢
  intro hav
  exact ha (List.mem_cons_of_mem g hav)

theorem missA_cons_lt {rules : List Rule} {g : String} {V : List String}
    (hg : g ∈ allAnts rules) (hv : g ∉ V) :
    missA rules (g :: V) < missA rules V := by
  refine filter_len_lt _ _ _ ?_ g hg ?_ ?_
  · intro a _ ha
    simp only [decide_eq_true_eq] at ha ⊢
    intro hav
    exact ha (List.mem_cons_of_mem g hav)
  · simpa using hv
  · simp

theorem rule_ants_le {rules : List Rule} {r : Rule} (h : r ∈ rules) :
    r.antecedents.length ≤ (allAnts rules).length := by
  induction rules with
  | nil => simp at h
  | cons r0 rs ih =>
    rw [allAnts_cons, List.length_append]
    rcases List.mem_cons.1 h with rfl | h'
    · exact Nat.le_add_right _ _
    · exact le_trans (ih h') (Nat.le_add_left _ _)

theorem bcC_ge (rules : List Rule) : 3 ≤ bcC rules := by
  unfold bcC
  omega

theorem bcRun_total : ∀ (fuel : Nat) (es : ExpertSystem) (c : BCCall),
    bcCond es.rules fuel c → (bcRun fuel es c).isSome := by
  intro fuel
  induction fuel with
  | zero =>
    intro es c hc
    exfalso
    cases c with
    | goal g V d =>
      simp only [bcCond] at hc
      have h3 := bcC_ge es.rules
      have h1 : 1 ≤ missA es.rules V + (if g ∈ allAnts es.rules then 1 else 2) := by
        split <;> omega
      have h4 := Nat.mul_le_mul h1 h3
      rw [Nat.one_mul] at h4
      linarith
    | rules g rs V d =>
      simp only [bcCond] at hc
      exact absurd (le_trans (Nat.le_add_left 2 _) hc.2) (by omega)
    | ants l V d =>
      simp only [bcCond] at hc
      exact absurd (le_trans (Nat.le_add_left 1 _) hc.2) (by omega)
  | succ fuel ih =>
    intro es c hc
    cases c with
    | goal g V d =>
      simp only [bcCond] at hc
      simp only [bcRun]
      by_cases hv : g ∈ V
      · rw [if_pos hv]; rfl
      · rw [if_neg hv]
        by_cases hrel :
            (es.rules.filter (fun r => r.consequents.contains g)).isEmpty = true
        · rw [if_pos hrel]; rfl
        · rw [if_neg hrel]
          apply ih
          refine ⟨fun r hr => (List.mem_filter.1 hr).1, ?_⟩
          have hrl : (es.rules.filter (fun r => r.consequents.contains g)).length ≤
              es.rules.length := List.length_filter_le _ _
          have hC : bcC es.rules = (allAnts es.rules).length + es.rules.length + 3 := rfl
          by_cases hg : g ∈ allAnts es.rules
          · rw [if_pos hg] at hc
            have hlt : missA es.rules (g :: V) < missA es.rules V :=
              missA_cons_lt hg hv
            have hmul : (missA es.rules (g :: V) + 1) * bcC es.rules ≤
                missA es.rules V * bcC es.rules :=
              Nat.mul_le_mul_right _ (by omega)
            have hexp : (missA es.rules V + 1) * bcC es.rules =
                missA es.rules V * bcC es.rules + bcC es.rules := by ring
            linarith
          · rw [if_neg hg] at hc
            have hle : missA es.rules (g :: V) ≤ missA es.rules V :=
              missA_cons_le _ _ _
            have hmul : (missA es.rules (g :: V) + 1) * bcC es.rules ≤
                (missA es.rules V + 1) * bcC es.rules :=
              Nat.mul_le_mul_right _ (by omega)
            have hexp : (missA es.rules V + 2) * bcC es.rules =
                (missA es.rules V + 1) * bcC es.rules + bcC es.rules := by ring
            linarith
    | rules g rs V d =>
      obtain ⟨hmem, hfuel⟩ := hc
      cases rs with
      | nil => simp [bcRun]
      | cons r rest =>
        simp only [bcRun]
        have hrul : r ∈ es.rules := hmem r (List.mem_cons_self r rest)
        have hAL : r.antecedents.length ≤ (allAnts es.rules).length :=
          rule_ants_le hrul
        have hlc : (r :: rest).length = rest.length + 1 := rfl
        have hcond : bcCond es.rules fuel (.ants r.antecedents V d) := by
          refine ⟨fun a ha => mem_allAnts hrul ha, ?_⟩
          rw [hlc] at hfuel
          linarith
        have h1 := ih (pushTrace es (.ruleExam d r.name r.description g r.antecedents))
          (.ants r.antecedents V d) hcond
        cases hm : bcRun fuel
            (pushTrace es (.ruleExam d r.name r.description g r.antecedents))
            (.ants r.antecedents V d) with
        | none => rw [hm] at h1; simp at h1
        | some p =>
          obtain ⟨pb, pes⟩ := p
          cases pb with
          | true => rfl
          | false =>
            show (bcRun fuel pes (BCCall.rules g rest V d)).isSome = true
            have hpres := bcRun_pres fuel _ _ _ _ hm
            apply ih
            have h5 : (pushTrace es
                (TraceStep.ruleExam d r.name r.description g r.antecedents)).rules =
              es.rules := rfl
            rw [hpres.1, h5]
            refine ⟨fun r' hr' => hmem r' (List.mem_cons_of_mem r hr'), ?_⟩
            rw [hlc] at hfuel
            linarith
    | ants l V d =>
      obtain ⟨hmem, hfuel⟩ := hc
      cases l with
      | nil => simp [bcRun]
      | cons a rest =>
        simp only [bcRun]
        have hlc : (a :: rest).length = rest.length + 1 := rfl
        rw [hlc] at hfuel
        by_cases hfa : factExists es.facts a = true
        · rw [if_pos hfa]
          apply ih
          refine ⟨fun x hx => hmem x (List.mem_cons_of_mem a hx), ?_⟩
          linarith
        · rw [if_neg hfa]
          have hga : a ∈ allAnts es.rules := hmem a (List.mem_cons_self a rest)
          have hcond : bcCond es.rules fuel (.goal a V (d + 1)) := by
            show fuel ≥
              (missA es.rules V + if a ∈ allAnts es.rules then 1 else 2) * bcC es.rules
            rw [if_pos hga]
            linarith
          have h1 := ih es (.goal a V (d + 1)) hcond
          cases hm : bcRun fuel es (.goal a V (d + 1)) with
          | none => rw [hm] at h1; simp at h1
          | some p =>
            obtain ⟨pb, pes⟩ := p
            cases pb with
            | false => rfl
            | true =>
              show (bcRun fuel pes (BCCall.ants rest V d)).isSome = true
              have hpres := bcRun_pres fuel _ _ _ _ hm
              apply ih
              rw [hpres.1]
              refine ⟨fun x hx => hmem x (List.mem_cons_of_mem a hx), ?_⟩
              linarith

theorem backward_chain_isSome (es : ExpertSystem) (g : String) :
    (backward_chain es g).isSome := by
  unfold backward_chain
  by_cases hex : factExists es.facts g = true
  · rw [if_pos hex]; rfl
  · rw [if_neg hex]
    apply bcRun_total
    show (missA es.rules [] + if g ∈ allAnts es.rules then 1 else 2) * bcC es.rules ≤
      bcFuel { es with trace := [] }
    have h1 : missA es.rules [] ≤ (allAnts es.rules).length :=
      List.length_filter_le _ _
    have h2 : (if g ∈ allAnts es.rules then 1 else 2) ≤ 2 := by split <;> omega
    have h3 : bcFuel { es with trace := [] } =
        ((allAnts es.rules).length + 2) * bcC es.rules := rfl
    rw [h3]
    exact Nat.mul_le_mul_right _ (by omega)

/-! ### The claims -/

/-- C7: for string arguments and a numeric confidence, `Fact` construction
fails with a validation error exactly when the statement is empty or the
confidence lies outside [0, 1]; `Rule` construction fails exactly when the
name, the antecedent list or the consequent list is empty; a successful
construction returns exactly the value record, with no other effect. -/
theorem c7_construction_validation (s : String) (c : ℚ) (src : String)
    (n : String) (ants cons : List String) (d : String) :
    (mkFact s c src = .ok ⟨s, c, src⟩ ↔ s ≠ "" ∧ 0 ≤ c ∧ c ≤ 1) ∧
    ((∃ e, mkFact s c src = .error e) ↔ (s = "" ∨ c < 0 ∨ 1 < c)) ∧
    (mkRule n ants cons d = .ok ⟨n, ants, cons, d⟩ ↔
      n ≠ "" ∧ ants ≠ [] ∧ cons ≠ []) ∧
    ((∃ e, mkRule n ants cons d = .error e) ↔
      (n = "" ∨ ants = [] ∨ cons = [])) := by
  refine ⟨?_, ?_, ?_, ?_⟩
  · unfold mkFact
    by_cases h1 : s = ""
    · rw [if_pos h1]
      exact iff_of_false (by simp) (by simp [h1])
    · rw [if_neg h1]
      by_cases h2 : 0 ≤ c ∧ c ≤ 1
      · rw [if_neg (not_not_intro h2)]
        exact iff_of_true rfl ⟨h1, h2⟩
      · rw [if_pos h2]
        refine iff_of_false (by simp) ?_
        rintro ⟨-, hc⟩
        exact h2 hc
  · unfold mkFact
    by_cases h1 : s = ""
    · rw [if_pos h1]
      exact iff_of_true ⟨_, rfl⟩ (Or.inl h1)
    · rw [if_neg h1]
      by_cases h2 : 0 ≤ c ∧ c ≤ 1
      · rw [if_neg (not_not_intro h2)]
        refine iff_of_false (by rintro ⟨e, he⟩; simp at he) ?_
        rintro (h | h | h)
        · exact h1 h
        · exact absurd h2.1 (not_le.2 h)
        · exact absurd h2.2 (not_le.2 h)
      · rw [if_pos h2]
        refine iff_of_true ⟨_, rfl⟩ (Or.inr ?_)
        rwa [not_and_or, not_le, not_le] at h2
  · unfold mkRule
    by_cases h1 : n = ""
    · rw [if_pos h1]
      exact iff_of_false (by simp) (by simp [h1])
    · rw [if_neg h1]
      by_cases h2 : ants = []
      · rw [if_pos h2]
        exact iff_of_false (by simp) (by simp [h2])
      · rw [if_neg h2]
        by_cases h3 : cons = []
        · rw [if_pos h3]
          exact iff_of_false (by simp) (by simp [h3])
        · rw [if_neg h3]
          exact iff_of_true rfl ⟨h1, h2, h3⟩
  · unfold mkRule
    by_cases h1 : n = ""
    · rw [if_pos h1]
      exact iff_of_true ⟨_, rfl⟩ (Or.inl h1)
    · rw [if_neg h1]
      by_cases h2 : ants = []
      · rw [if_pos h2]
        exact iff_of_true ⟨_, rfl⟩ (Or.inr (Or.inl h2))
      · rw [if_neg h2]
        by_cases h3 : cons = []
        · rw [if_pos h3]
          exact iff_of_true ⟨_, rfl⟩ (Or.inr (Or.inr h3))
        · rw [if_neg h3]
          refine iff_of_false (by rintro ⟨e, he⟩; simp at he) ?_
          rintro (h | h | h)
          · exact h1 h
          · exact h2 h
          · exact h3 h

theorem c7_construction_validation_witness :
    mkFact "fever" 1 "user input" = .ok ⟨"fever", 1, "user input"⟩ ∧
    (∃ e, mkRule "" ["a"] ["b"] "" = .error e) :=
  ⟨(c7_construction_validation "fever" 1 "user input" "" ["a"] ["b"] "").1.mpr
      (by decide),
   (c7_construction_validation "fever" 1 "user input" "" ["a"] ["b"] "").2.2.2.mpr
      (Or.inl rfl)⟩

/-- C1: in every round of `forward_chain` the rules applied are exactly
those that, in the working-memory snapshot taken at the start of the round
(the `facts` handed to the round's candidate scan), have some consequent
not yet a fact and all antecedents already facts; every trace record a
round appends names a rule of that snapshot list, so a fact asserted by
one rule during a round never makes another rule eligible within the same
round, while the state threaded through `applyConsequents` (hence each
confidence computation) does see facts asserted earlier in the round. -/
theorem c1_round_snapshot (rules : List Rule) (facts : List Fact) :
    (∀ r : Rule, r ∈ applicable rules facts ↔
      r ∈ rules ∧ ¬ (∀ c ∈ r.consequents, factExists facts c = true) ∧
        (∀ a ∈ r.antecedents, factExists facts a = true)) ∧
    (∀ (trace : List TraceStep) (iter : Nat) (step : TraceStep),
      step ∈ (applyRound facts trace iter (applicable rules facts)).2.1 →
      step ∈ trace ∨ ∃ r ∈ applicable rules facts, ∃ ants nf,
        step = TraceStep.forward iter r.name r.description ants nf) :=
  ⟨fun r => mem_applicable_iff rules facts r,
   fun _ _ _ h => applyRound_trace_mem h⟩

theorem c1_round_snapshot_witness :
    rFC ∈ esFC.rules ∧
      ¬ (∀ c ∈ rFC.consequents, factExists esFC.facts c = true) ∧
      (∀ a ∈ rFC.antecedents, factExists esFC.facts a = true) :=
  ((c1_round_snapshot esFC.rules esFC.facts).1 rFC).mp (by decide)

/-- C2: every fact asserted into working memory by `forward_chain` (present
afterwards, absent before) has source exactly `"Rule: "` followed by the
firing rule's name and confidence equal to the minimum of that rule's
antecedent confidences; asserted facts are never overwritten during a run,
so the minimum read in the final state equals the minimum read from the
working memory at the moment of assertion, and the second conjunct
exhibits the assertion step itself, whose fact is built from the working
memory threaded to exactly that point. -/
theorem c2_assertion_provenance :
    (∀ (es : ExpertSystem) (s : String) (f : Fact),
      findFact es.facts s = none →
      findFact (forward_chain es).1.facts s = some f →
      ∃ r, r ∈ es.rules ∧ s ∈ r.consequents ∧
        f.source = "Rule: " ++ r.name ∧
        (∀ a ∈ r.antecedents, factExists (forward_chain es).1.facts a = true) ∧
        f.confidence = minConf (forward_chain es).1.facts r.antecedents) ∧
    (∀ (facts : List Fact) (r : Rule) (c : String) (cs : List String),
      factExists facts c = false →
      applyConsequents facts r (c :: cs) =
        ((applyConsequents
          (insertFact facts ⟨c, minConf facts r.antecedents, "Rule: " ++ r.name⟩)
          r cs).1, true)) := by
  constructor
  · intro es s f h0 h1
    rcases forward_chain_inv es s f h1 with hl | hr
    · rw [h0] at hl; cases hl
    · exact hr
  · intro facts r c cs hmiss
    simp only [applyConsequents]
    rw [if_neg (by simp [hmiss])]

theorem c2_assertion_provenance_witness :
    ∃ r, r ∈ esFC.rules ∧ "d" ∈ r.consequents ∧
      (⟨"d", q45, "Rule: R1"⟩ : Fact).source = "Rule: " ++ r.name ∧
      (∀ a ∈ r.antecedents, factExists (forward_chain esFC).1.facts a = true) ∧
      (⟨"d", q45, "Rule: R1"⟩ : Fact).confidence =
        minConf (forward_chain esFC).1.facts r.antecedents :=
  c2_assertion_provenance.1 esFC "d" ⟨"d", q45, "Rule: R1"⟩ (by decide) (by decide)

/-- C3: `forward_chain` never removes (or alters) a working-memory entry,
so the fact set only grows during a run; and running it again immediately
after a completed run, with stores untouched in between, returns an empty
trace and leaves working memory unchanged. -/
theorem c3_monotone_idempotent :
    (∀ (es : ExpertSystem) (s : String) (f : Fact),
      findFact es.facts s = some f →
      findFact (forward_chain es).1.facts s = some f) ∧
    (∀ es : ExpertSystem,
      (forward_chain (forward_chain es).1).1.facts = (forward_chain es).1.facts ∧
      (forward_chain (forward_chain es).1).2 = []) := by
  constructor
  · intro es s f h
    exact forward_chain_le es s f h
  · intro es
    apply forward_chain_of_fix
    rw [forward_chain_rules]
    exact forward_chain_fix es

theorem c3_monotone_idempotent_witness :
    findFact (forward_chain esFC).1.facts "p" = some ⟨"p", q45, "user input"⟩ :=
  c3_monotone_idempotent.1 esFC "p" ⟨"p", q45, "user input"⟩ (by decide)

/-- C4: when the backward-chaining recursion proves a goal through a rule
(its antecedent loop returns true), it returns true at once with the state
`provenResult`, identical whether or not further relevant rules follow
(first successful rule in knowledge-base order wins); and when the goal
was not yet a fact, `provenResult` asserts it with confidence equal to the
minimum of the rule's antecedent confidences and source
`"Backward chaining: "` followed by the rule's name. -/
theorem c4_first_rule_wins : ∀ (fuel : Nat) (es : ExpertSystem) (g : String)
    (r : Rule) (rest : List Rule) (V : List String) (d : Nat)
    (es2 : ExpertSystem),
    bcRun fuel (pushTrace es (.ruleExam d r.name r.description g r.antecedents))
      (.ants r.antecedents V d) = some (true, es2) →
    bcRun (fuel + 1) es (.rules g (r :: rest) V d) =
      some (true, provenResult es2 g r d) ∧
    bcRun (fuel + 1) es (.rules g [r] V d) =
      some (true, provenResult es2 g r d) ∧
    (factExists es2.facts g = false →
      findFact (provenResult es2 g r d).facts g =
        some ⟨g, minConf es2.facts r.antecedents, "Backward chaining: " ++ r.name⟩) := by
  intro fuel es g r rest V d es2 h
  refine ⟨?_, ?_, ?_⟩
  · simp only [bcRun, h]
  · simp only [bcRun, h]
  · intro hg
    simp only [provenResult, pushTrace, addFact]
    rw [if_neg (by simp [hg])]
    exact findFact_insert_self hg

theorem c4_first_rule_wins_witness :
    bcRun 11 esC4 (.rules "g" [rC4a, rC4b] ["g"] 1) =
      some (true, provenResult esC4x "g" rC4a 1) ∧
    bcRun 11 esC4 (.rules "g" [rC4a] ["g"] 1) =
      some (true, provenResult esC4x "g" rC4a 1) ∧
    findFact (provenResult esC4x "g" rC4a 1).facts "g" =
      some ⟨"g", minConf esC4x.facts ["p"], "Backward chaining: " ++ "R1"⟩ := by
  have h := c4_first_rule_wins 10 esC4 "g" rC4a [rC4b] ["g"] 1 esC4x (by decide)
  exact ⟨h.1, (c4_first_rule_wins 10 esC4 "g" rC4a [] ["g"] 1 esC4x (by decide)).2.1,
    h.2.2 (by decide)⟩

/-- C6: a `backward_chain` call, in particular one that returns
proven = false, keeps every working-memory entry it found or asserted:
the working memory after the call is a superset of the one before, and
the concrete scenario `esBC` exhibits an overall failure whose proved
sub-goal fact `"p"` persists. -/
theorem c6_no_rollback :
    (∀ (es : ExpertSystem) (g : String) (b : Bool) (es' : ExpertSystem),
      backward_chain es g = some (b, es') →
      ∀ (s : String) (f : Fact), findFact es.facts s = some f →
        findFact es'.facts s = some f) ∧
    factExists esBC.facts "p" = false ∧
    (backward_chain esBC "g").map (fun p => (p.1, factExists p.2.facts "p")) =
      some (false, true) := by
  refine ⟨?_, by decide, by decide⟩
  intro es g b es' h s f hf
  exact (backward_chain_pres h).2 s f hf

theorem c6_no_rollback_witness :
    findFact esSmallOut.facts "a" = some ⟨"a", 1, ""⟩ :=
  c6_no_rollback.1 esSmall "g" false esSmallOut (by decide) "a" ⟨"a", 1, ""⟩
    (by decide)

/-- C10: a statement already present in working memory is never replaced
or modified by either engine: after any `forward_chain` run and any
`backward_chain` call the original entry (same confidence, same source)
is still the one found. -/
theorem c10_no_overwrite :
    ∀ (es : ExpertSystem) (s : String) (f : Fact),
      findFact es.facts s = some f →
      findFact (forward_chain es).1.facts s = some f ∧
      ∀ (g : String) (b : Bool) (es' : ExpertSystem),
        backward_chain es g = some (b, es') → findFact es'.facts s = some f := by
  intro es s f h
  exact ⟨forward_chain_le es s f h,
    fun g b es' hb => (backward_chain_pres hb).2 s f h⟩

theorem c10_no_overwrite_witness :
    findFact (forward_chain esSmall).1.facts "a" = some ⟨"a", 1, ""⟩ :=
  (c10_no_overwrite esSmall "a" ⟨"a", 1, ""⟩ (by decide)).1

/-- C5: backward chaining terminates on every finite rule set: the fuel
budget `bcFuel` always suffices, so `backward_chain` returns a value for
every store and goal (first conjunct); and on the cyclic two-rule
knowledge base `cycES` with empty working memory the call returns
proven = false and its trace carries a "Circular reasoning detected"
record with status Failed (appended when the goal reappears on its own
ancestor chain at depth 3). -/
theorem c5_backward_termination :
    (∀ (es : ExpertSystem) (g : String), (backward_chain es g).isSome) ∧
    (backward_chain cycES "a").map Prod.fst = some false ∧
    (backward_chain cycES "a").map
      (fun p => decide ((TraceStep.recursionCheck 3 "a"
        "Circular reasoning detected" "Failed") ∈ p.2.trace)) = some true :=
  ⟨backward_chain_isSome, by decide, by decide⟩

/-- C8 counterexample: the statement `"a"` is a known fact of `esM` whose
source `"manual entry"` is no derivation marker, yet `explain_fact`
returns the empty list rather than one "directly provided" entry. -/
theorem c8_counterexample :
    factExists esM.facts "a" = true ∧
    explainFact 3 esM "a" = .ok [] ∧
    explainFact 3 esM "a" ≠
      .ok [.message ("Fact \x27a\x27 was directly provided as input.")] :=
  ⟨by decide, by decide, by decide⟩

/-- C8 (amended): `explain_fact` on a statement not in working memory
returns exactly one "does not exist" entry; on a known fact whose source
is empty or starts with `"user input"` it returns exactly one "directly
provided" entry; on a known fact with any other source that starts with
neither `"Rule:"` nor `"Backward chaining:"` it returns the empty list. -/
theorem c8_explain_behavior (es : ExpertSystem) (s : String) (fuel : Nat) :
    (factExists es.facts s = false →
      explainFact (fuel + 1) es s =
        .ok [.message ("Fact \x27" ++ s ++ "\x27 does not exist in working memory.")]) ∧
    (∀ f : Fact, findFact es.facts s = some f →
      (f.source = "" ∨ strStartsWith f.source "user input" = true) →
      explainFact (fuel + 1) es s =
        .ok [.message ("Fact \x27" ++ s ++ "\x27 was directly provided as input.")]) ∧
    (∀ f : Fact, findFact es.facts s = some f →
      f.source ≠ "" → strStartsWith f.source "user input" = false →
      strStartsWith f.source "Rule:" = false →
      strStartsWith f.source "Backward chaining:" = false →
      explainFact (fuel + 1) es s = .ok []) := by
  refine ⟨?_, ?_, ?_⟩
  · intro hex
    cases hfd : findFact es.facts s with
    | some f => simp [factExists, hfd] at hex
    | none =>
      unfold explainFact
      simp only [explainRun, hfd]
  · intro f hfind hsrc
    have hcond : (f.source == "" || strStartsWith f.source "user input") = true := by
      rcases hsrc with h | h
      · simp [h]
      · simp [h]
    unfold explainFact
    simp only [explainRun, hfind]
    rw [if_pos hcond]
  · intro f hfind hne hui hr hbc
    have hb : (f.source == "") = false := beq_eq_false_iff_ne.mpr hne
    unfold explainFact
    simp only [explainRun, hfind]
    rw [if_neg (by simp [hb, hui])]
    rw [if_neg (by simp [hr])]
    rw [if_neg (by simp [hbc])]

theorem c8_explain_behavior_witness :
    explainFact 3 esSmall "a" =
      .ok [.message ("Fact \x27" ++ "a" ++ "\x27 was directly provided as input.")] :=
  (c8_explain_behavior esSmall "a" 2).2.1 ⟨"a", 1, ""⟩ (by decide) (Or.inl rfl)

/-- C9 counterexample: the fact `⟨"a", 1, "Rule:x"⟩` passes construction
validation and sits in the well-formed store `esX`, yet `explain_fact`
fails with the modelled `IndexError` (Python: `source.split(": ")[1]` on a
source that starts with `"Rule:"` but contains no `": "`), so the engine
operations are not total over all well-formed stores. -/
theorem c9_counterexample :
    mkFact "a" 1 "Rule:x" = .ok ⟨"a", 1, "Rule:x"⟩ ∧
    factExists esX.facts "a" = true ∧
    explainFact 3 esX "a" = .error .indexError :=
  ⟨by decide, by decide, by decide⟩

/-- C9 (amended): backward chaining returns a value for every goal string
and every store (unknown goals and empty knowledge bases included);
forward chaining always reaches the terminal round in which no rule is
applicable; and `explain_fact` on a known fact whose source is
`"Rule: <name>"` with `<name>` absent from the knowledge base returns the
empty (partial) explanation instead of raising.  Totality does not extend
to sources that start with `"Rule:"` or `"Backward chaining:"` but lack
the `": "` separator. -/
theorem c9_totality :
    (∀ (es : ExpertSystem) (g : String), (backward_chain es g).isSome) ∧
    (∀ es : ExpertSystem, applicable es.rules (forward_chain es).1.facts = []) ∧
    (∀ (es : ExpertSystem) (s : String) (f : Fact) (nm : List Char) (fuel : Nat),
      findFact es.facts s = some f → f.source ≠ "" →
      strStartsWith f.source "user input" = false →
      strStartsWith f.source "Rule:" = true →
      splitIndex1 (": ").data f.source.data = some nm →
      findRule es.rules (String.mk nm) = none →
      explainFact (fuel + 1) es s = .ok []) := by
  refine ⟨backward_chain_isSome, forward_chain_fix, ?_⟩
  intro es s f nm fuel hfind hne hui hrule hsplit hfr
  have hb : (f.source == "") = false := beq_eq_false_iff_ne.mpr hne
  unfold explainFact
  simp only [explainRun, hfind]
  rw [if_neg (by simp [hb, hui])]
  rw [if_pos hrule]
  simp only [hsplit, hfr]

theorem c9_totality_witness :
    explainFact 3 esD "a" = .ok [] :=
  c9_totality.2.2 esD "a" ⟨"a", 1, "Rule: ghost"⟩ ("ghost").data 2
    (by decide) (by decide) (by decide) (by decide) (by decide) (by decide)

end ExpertCore
